import Mathlib

/-!
Shallow embedding of the course-recommendation engine
(`app/recommender.py` over the snapshot shape built by `app/data_loader.py`).

Conventions of the embedding:
* Python `float` scores are modelled as `ℚ` (the program only adds,
  multiplies, divides and min/max-compares scores, and every claim under
  study is insensitive to binary floating-point rounding of these small
  decimal constants).  The library operations `Rat.add`, `Rat.mul`,
  `Rat.sub`, `Rat.inv` and `Rat.ofScientific` are `@[irreducible]`, which
  blocks concrete evaluation inside witnesses; the definitions therefore
  compute with the wrappers `qadd`, `qsub`, `qmul`, `qdiv`, `qround`,
  each proved equal to the standard operation (`qadd_eq` …), so the
  arithmetic is exactly rational arithmetic.  Decimal weight literals are
  written `mkRat 6 10` (= 0.6) for the same reason.
* Python `dict` is modelled as an association list `List (String × α)`
  looked up by first match (`findD` / `findO`, mirroring
  `dict.get(key, default)` / `dict.get(key)`); dictionaries in the program
  always have distinct keys.
* Python `set` is modelled as `Finset String`.  Where the program iterates
  over a set we iterate over its sorted enumeration (`setToList`): Python's
  set iteration order is unspecified and every use in the program is
  order-insensitive (commutative accumulation, or a later total sort).
* `Counter` (a total map with default 0) is modelled as a function
  `String → ℚ` updated pointwise by `cadd`.
* The string primitives `value.split("|")`, `str.strip()`, `str.lower()`
  and lexicographic string comparison are modelled by the structurally
  recursive `pySplit`, `pyStrip`, `pyLower`, `lexLE` over the character
  list of the string (code-point order, ASCII whitespace), matching the
  Python semantics on the data the program handles.
* `sorted(..., key=...)` (a stable sort by a total key) is modelled by
  insertion sort, which is also stable; since the keys compared are
  injective on the sorted lists (distinct dictionary keys), any stable —
  indeed any — sort agrees with it.
* `round(x, 3)` is modelled as decimal rounding on `ℚ` (`round3`); the
  claims settled here do not depend on tie-breaking at half-thousandths.
* The snapshot is passed explicitly to each function (the cached
  `get_dataset()` singleton becomes an explicit argument `ds`), so every
  theorem quantifies over snapshots.
-/

/-! ### Kernel-evaluable rational arithmetic (bridged to `+ - * /` below) -/

/-- Rational addition, computing through `mkRat` (see the header note). -/
def qadd (a b : ℚ) : ℚ := mkRat (a.num * b.den + b.num * a.den) (a.den * b.den)

/-- Rational subtraction, computing through `mkRat`. -/
def qsub (a b : ℚ) : ℚ := mkRat (a.num * b.den - b.num * a.den) (a.den * b.den)

/-- Rational multiplication, computing through `mkRat`. -/
def qmul (a b : ℚ) : ℚ := mkRat (a.num * b.num) (a.den * b.den)

/-- Rational division, computing through `mkRat`. -/
def qdiv (a b : ℚ) : ℚ := qmul a (Rat.divInt b.den b.num)

/-- Round-to-nearest-integer (half away from zero at `.5`, like Mathlib's
`round`), computing through `Rat.floor`. -/
def qround (q : ℚ) : ℤ := (qadd q (mkRat 1 2)).floor

theorem qadd_eq (a b : ℚ) : qadd a b = a + b := (Rat.add_def' a b).symm

theorem qsub_eq (a b : ℚ) : qsub a b = a - b := (Rat.sub_def' a b).symm

theorem qmul_eq (a b : ℚ) : qmul a b = a * b := by
  rw [Rat.mul_def, Rat.normalize_eq_mkRat]; rfl

theorem qdiv_eq (a b : ℚ) : qdiv a b = a / b := by
  rw [Rat.div_def, qdiv, qmul_eq, Rat.inv_def]

theorem qround_eq (q : ℚ) : qround q = round q := by
  rw [round_eq, qround, qadd_eq]
  norm_num
  rfl

/-! ### Python string primitives, structurally recursive -/

/-- `value.split(sep)` on the character list (single-character separator;
empty segments preserved, `pySplit '|' "" = [""]`). -/
def splitCharList (sep : Char) : List Char → List (List Char)
  | [] => [[]]
  | c :: rest =>
    match splitCharList sep rest with
    | cur :: out => if c = sep then [] :: cur :: out else (c :: cur) :: out
    | [] => [[]]

/-- `value.split(sep)` for a single-character separator. -/
def pySplit (sep : Char) (s : String) : List String :=
  (splitCharList sep s.data).map (fun l => { data := l })

/-- An ASCII whitespace character (`str.strip()`'s notion, restricted to
the ASCII whitespace actually occurring in the snapshot's data). -/
def wsChar (c : Char) : Bool := c == ' ' || c == '\t' || c == '\n' || c == '\r'

/-- `str.strip()`. -/
def pyStrip (s : String) : String :=
  { data := ((s.data.dropWhile wsChar).reverse.dropWhile wsChar).reverse }

/-- `str.lower()` (character-wise, as for the ASCII data in the snapshot). -/
def pyLower (s : String) : String := { data := s.data.map Char.toLower }

/-- Lexicographic (code-point) `≤` on character lists: Python string
comparison. -/
def lexLE : List Char → List Char → Bool
  | [], _ => true
  | _ :: _, [] => false
  | a :: as, b :: bs => if a = b then lexLE as bs else decide (a < b)

/-- Python string `≤` (lexicographic by code point). -/
def strR (a b : String) : Prop := lexLE a.data b.data = true

instance strR.decRel : DecidableRel strR := fun a b =>
  instDecidableEqBool (lexLE a.data b.data) true

theorem lexLE_total (a b : List Char) : lexLE a b = true ∨ lexLE b a = true := by
  induction a generalizing b with
  | nil => exact Or.inl rfl
  | cons x xs ih =>
    cases b with
    | nil => exact Or.inr rfl
    | cons y ys =>
      by_cases hxy : x = y
      · subst hxy
        simpa [lexLE] using ih ys
      · rcases lt_or_gt_of_ne hxy with h | h
        · left; simp [lexLE, hxy, h]
        · right; simp [lexLE, Ne.symm hxy, h, asymm h]

theorem lexLE_trans {a b c : List Char} (hab : lexLE a b = true)
    (hbc : lexLE b c = true) : lexLE a c = true := by
  induction a generalizing b c with
  | nil => rfl
  | cons x xs ih =>
    cases b with
    | nil => simp [lexLE] at hab
    | cons y ys =>
      cases c with
      | nil => simp [lexLE] at hbc
      | cons z zs =>
        by_cases hxy : x = y <;> by_cases hyz : y = z
        · subst hxy; subst hyz
          simp only [lexLE, if_pos rfl] at hab hbc ⊢
          exact ih hab hbc
        · subst hxy
          simp only [lexLE, if_pos rfl] at hab
          simpa [lexLE, hyz] using hbc
        · subst hyz
          simpa [lexLE, hxy] using hab
        · simp only [lexLE, if_neg hxy, decide_eq_true_eq] at hab
          simp only [lexLE, if_neg hyz, decide_eq_true_eq] at hbc
          have hxz : x < z := lt_trans hab hbc
          simp [lexLE, ne_of_lt hxz, hxz]

theorem lexLE_antisymm {a b : List Char} (hab : lexLE a b = true)
    (hba : lexLE b a = true) : a = b := by
  induction a generalizing b with
  | nil =>
    cases b with
    | nil => rfl
    | cons y ys => simp [lexLE] at hba
  | cons x xs ih =>
    cases b with
    | nil => simp [lexLE] at hab
    | cons y ys =>
      by_cases hxy : x = y
      · subst hxy
        simp only [lexLE, if_pos rfl] at hab hba
        rw [ih hab hba]
      · simp only [lexLE, if_neg hxy, decide_eq_true_eq] at hab
        simp only [lexLE, if_neg (Ne.symm hxy), decide_eq_true_eq] at hba
        exact absurd hab (asymm hba)

instance strR.isTotal : IsTotal String strR :=
  ⟨fun a b => lexLE_total a.data b.data⟩

instance strR.isTrans : IsTrans String strR :=
  ⟨fun _ _ _ hab hbc => lexLE_trans hab hbc⟩

instance strR.isAntisymm : IsAntisymm String strR :=
  ⟨fun a b hab hba => by
    cases a; cases b
    exact congrArg _ (lexLE_antisymm hab hba)⟩

/-- Sort a list of strings ascending (lexical). -/
def sortStrings (l : List String) : List String := List.insertionSort strR l

/-- Sorted enumeration of a `Finset String` (Python set iteration,
determinized; see the header note). -/
def setToList (s : Finset String) : List String :=
  Quot.liftOn s.val sortStrings (fun a b h =>
    List.eq_of_perm_of_sorted
      ((List.perm_insertionSort strR a).trans
        (h.trans (List.perm_insertionSort strR b).symm))
      (List.sorted_insertionSort strR a) (List.sorted_insertionSort strR b))

theorem mem_setToList {a : String} {s : Finset String} :
    a ∈ setToList s ↔ a ∈ s := by
  rcases s with ⟨m, nd⟩
  induction m using Quotient.inductionOn with
  | h l =>
    show a ∈ sortStrings l ↔ _
    rw [Finset.mem_mk]
    exact (List.perm_insertionSort strR l).mem_iff

theorem nodup_setToList (s : Finset String) : (setToList s).Nodup := by
  rcases s with ⟨m, nd⟩
  induction m using Quotient.inductionOn with
  | h l =>
    exact ((List.perm_insertionSort strR l).nodup_iff).mpr
      (by simpa using nd)

theorem length_setToList (s : Finset String) :
    (setToList s).length = s.card := by
  rcases s with ⟨m, nd⟩
  induction m using Quotient.inductionOn with
  | h l => exact (List.perm_insertionSort strR l).length_eq

/-! ### The data model -/

/-- One row of `courses.csv` as indexed by `data_loader._build_dataset`
(`courses[course_id]`); the `skills` column is carried separately in
`course_skill_tags`, as in the loader. -/
structure Course where
  course_code : String
  title : String
  category : String
  delivery_mode : String
  description : String
  prerequisites : String
  term_patterns : String
deriving DecidableEq, Repr

/-- Used to totalize `dataset.courses[course_id]`; in the program every
such access is to a key present in the dictionary, so the default is never
observed by the claims. -/
def defaultCourse : Course :=
  { course_code := "", title := "", category := "", delivery_mode := ""
    description := "", prerequisites := "", term_patterns := "" }

/-- The fields of `data_loader.SyntheticDataset` that the recommender reads. -/
structure SyntheticDataset where
  courses : List (String × Course)
  student_completed_courses : List (String × Finset String)
  student_interest_tags : List (String × Finset String)
  course_skill_tags : List (String × Finset String)
  collaborative_matrix : List (String × Finset String)
deriving DecidableEq

/-- `dict.get(key, default)` / `dict[key]` on an association list:
first matching entry, or the default. -/
def findD {α : Type} (m : List (String × α)) (k : String) (d : α) : α :=
  match m with
  | [] => d
  | p :: rest => if p.1 = k then p.2 else findD rest k d

/-- `dict.get(key)` on an association list: `some` of the first matching
entry, else `none` (Python `None`). -/
def findO {α : Type} (m : List (String × α)) (k : String) : Option α :=
  match m with
  | [] => none
  | p :: rest => if p.1 = k then some p.2 else findO rest k

/-- A raw or normalized score map (`Dict[str, float]` in the source). -/
abbrev ScoreMap := List (String × ℚ)

/-- `collab_scores[course_id] += v` on a `defaultdict(float)`:
add to the existing entry, or append a fresh one. -/
def maddTo (m : ScoreMap) (k : String) (v : ℚ) : ScoreMap :=
  match m with
  | [] => [(k, v)]
  | p :: rest =>
    if p.1 = k then (p.1, qadd p.2 v) :: rest else p :: maddTo rest k v

/-- `Counter` with default weight 0. -/
def emptyCounter : String → ℚ := fun _ => 0

/-- `profile[key] += w` on a `Counter`. -/
def cadd (p : String → ℚ) (k : String) (w : ℚ) : String → ℚ :=
  fun x => if x = k then qadd (p x) w else p x

/-- `min(values)` of a non-empty list (`listMin [] = 0` is never used:
`_normalize` guards emptiness first). -/
def listMin : List ℚ → ℚ
  | [] => 0
  | x :: xs => xs.foldl min x

/-- `max(values)` of a non-empty list. -/
def listMax : List ℚ → ℚ
  | [] => 0
  | x :: xs => xs.foldl max x

/-! ### `app/recommender.py` -/

/-- `recommender._normalize`. -/
def _normalize (scores : ScoreMap) : ScoreMap :=
  if scores = [] then []
  else
    let min_score := listMin (scores.map Prod.snd)
    let max_score := listMax (scores.map Prod.snd)
    if max_score = min_score then scores.map (fun p => (p.1, 1))
    else scores.map (fun p => (p.1, qdiv (qsub p.2 min_score) (qsub max_score min_score)))

/-- `recommender._split_to_set`. -/
def _split_to_set (value : String) : Finset String :=
  (((pySplit '|' value).map pyStrip).filter (fun s => s ≠ "")).toFinset

/-- `recommender._prerequisites_met`. -/
def _prerequisites_met (course_id : String) (completed_courses : Finset String)
    (ds : SyntheticDataset) : Bool :=
  let prereqs := (findD ds.courses course_id defaultCourse).prerequisites
  if prereqs = "" then true
  else decide (_split_to_set prereqs ⊆ completed_courses)

/-- `recommender._content_profile_from_courses` (a `Counter` built by
accumulating the features of each completed course; weights 1.0, 0.6,
0.2, 0.4). -/
def _content_profile_from_courses (course_ids : List String)
    (ds : SyntheticDataset) : String → ℚ :=
  course_ids.foldl (fun profile course_id =>
    let skills := setToList (findD ds.course_skill_tags course_id ∅)
    let profile := skills.foldl (fun pr skill => cadd pr skill 1) profile
    match findO ds.courses course_id with
    | none => profile
    | some c =>
      let profile := cadd profile ("category::" ++ c.category) (mkRat 6 10)
      let profile := (setToList (_split_to_set c.term_patterns)).foldl
        (fun pr term => cadd pr ("term::" ++ pyLower term) (mkRat 2 10)) profile
      cadd profile ("delivery::" ++ c.delivery_mode) (mkRat 4 10))
    emptyCounter

/-- `recommender._content_profile_from_interests`. -/
def _content_profile_from_interests (interests : List String) : String → ℚ :=
  interests.foldl (fun profile interest => cadd profile interest 1) emptyCounter

/-- `recommender._score_content` (`0.1` times the term-pattern weight). -/
def _score_content (candidate_courses : Finset String) (profile : String → ℚ)
    (ds : SyntheticDataset) : ScoreMap :=
  (setToList candidate_courses).map (fun course_id =>
    let c := findD ds.courses course_id defaultCourse
    let score := (setToList (findD ds.course_skill_tags course_id ∅)).foldl
      (fun s skill => qadd s (profile skill)) 0
    let score := qadd score (profile ("category::" ++ c.category))
    let score := qadd score (profile ("delivery::" ++ c.delivery_mode))
    let score := (setToList (_split_to_set c.term_patterns)).foldl
      (fun s term => qadd s (qmul (mkRat 1 10) (profile ("term::" ++ pyLower term))))
      score
    (course_id, score))

/-- Jaccard similarity of two finite sets of course identifiers. -/
def jaccard (a b : Finset String) : ℚ :=
  ((a ∩ b).card : ℚ) / ((a ∪ b).card : ℚ)

/-- The body of the peer loop of `_score_collaborative_history` (named so
the fold can be reasoned about by induction): skip the requester, skip
zero-overlap peers, and add the Jaccard similarity to every eligible
course the peer completed. -/
def historyStep (student_id : String)
    (candidate_courses completed_courses : Finset String) :
    ScoreMap → (String × Finset String) → ScoreMap := fun m p =>
  if p.1 = student_id then m
  else
    let intersection := (completed_courses ∩ p.2).card
    if intersection = 0 then m
    else
      let union := (completed_courses ∪ p.2).card
      if union = 0 then m
      else
        let similarity : ℚ := qdiv (intersection : ℚ) (union : ℚ)
        if similarity ≤ 0 then m
        else
          (setToList p.2).foldl (fun m2 course_id =>
            if course_id ∈ completed_courses ∨ course_id ∉ candidate_courses
            then m2
            else maddTo m2 course_id similarity) m

/-- `recommender._score_collaborative_history`. -/
def _score_collaborative_history (student_id : String)
    (candidate_courses : Finset String) (completed_courses : Finset String)
    (ds : SyntheticDataset) : ScoreMap :=
  ds.student_completed_courses.foldl
    (historyStep student_id candidate_courses completed_courses) []

/-- `recommender._score_collaborative_interests`. -/
def _score_collaborative_interests (candidate_courses : Finset String)
    (interest_tags : Finset String) (ds : SyntheticDataset) : ScoreMap :=
  if interest_tags = ∅ then []
  else
    ds.student_interest_tags.foldl (fun m p =>
      let overlap := (p.2 ∩ interest_tags).card
      if overlap = 0 then m
      else
        let similarity : ℚ := qdiv (overlap : ℚ) (interest_tags.card : ℚ)
        if similarity ≤ 0 then m
        else
          (setToList (findD ds.student_completed_courses p.1 ∅)).foldl
            (fun m2 course_id =>
              if course_id ∉ candidate_courses then m2
              else maddTo m2 course_id similarity) m)
      []

/-- `recommender._candidate_courses`. -/
def _candidate_courses (completed_courses : Finset String)
    (ds : SyntheticDataset) : Finset String :=
  ((ds.courses.map Prod.fst).toFinset).filter (fun cid => cid ∉ completed_courses)

/-- One record of the returned recommendation payload. -/
structure Recommendation where
  course_id : String
  course_code : String
  title : String
  category : String
  delivery_mode : String
  combined_score : ℚ
  content_score : ℚ
  collab_score : ℚ
  skills : List String
  description : String
  explanation : String
deriving DecidableEq, Repr

/-- Python `round(x, 3)` modelled as decimal rounding on `ℚ`. -/
def round3 (q : ℚ) : ℚ := qdiv ((qround (qmul q 1000) : ℤ) : ℚ) 1000

theorem round3_eq (q : ℚ) :
    round3 q = ((round (q * 1000) : ℤ) : ℚ) / 1000 := by
  rw [round3, qdiv_eq, qround_eq, qmul_eq]

/-- The sort order `(-combined_score, course_id)` of
`_build_recommendation_payload` (higher score first; ties by ascending
course identifier). -/
def rankR (a b : String × ℚ) : Prop :=
  b.2 < a.2 ∨ (a.2 = b.2 ∧ strR a.1 b.1)

instance rankR.decRel : DecidableRel rankR := fun _ _ =>
  instDecidableOr

/-- `sorted(combined_scores.items(), key=(-score, id))[:top_n]` (a stable
sort by a total key; see the header note). -/
def rankList (combined_scores : ScoreMap) (top_n : ℕ) : List (String × ℚ) :=
  (List.insertionSort rankR combined_scores).take top_n

/-- The skills fragment of `_build_explanation`:
`f"matches your focus on {...}"` with `', '.join(skills[:3])`, or
`"related skills"` for an empty skill list. -/
def skillsFragment (skills : List String) : String :=
  "matches your focus on " ++
    (if skills = [] then "related skills"
     else String.intercalate ", " (skills.take 3))

/-- The peers fragment of `_build_explanation`:
`f"popular with {len(collaborative_matrix.get(course_id, set()))} similar students"`. -/
def peersFragment (course_id : String) (ds : SyntheticDataset) : String :=
  "popular with " ++ toString (findD ds.collaborative_matrix course_id ∅).card
    ++ " similar students"

/-- `recommender._build_explanation` (a Python nonzero-float truthiness
test guards each fragment). -/
def _build_explanation (course_id : String) (content_score : ℚ)
    (collab_score : ℚ) (skills : List String) (ds : SyntheticDataset) : String :=
  let fragments : List String :=
    (if content_score ≠ 0 then [skillsFragment skills] else []) ++
    (if collab_score ≠ 0 then [peersFragment course_id ds] else [])
  let fragments :=
    if fragments = [] then ["broadens your MAC coursework"] else fragments
  String.intercalate " and " fragments

/-- One element of the `results` list of `_build_recommendation_payload`. -/
def mkRecommendation (course_id : String) (score : ℚ)
    (content_scores collab_scores : ScoreMap) (ds : SyntheticDataset) :
    Recommendation :=
  let c := findD ds.courses course_id defaultCourse
  let skills := setToList (findD ds.course_skill_tags course_id ∅)
  { course_id := course_id
    course_code := c.course_code
    title := c.title
    category := c.category
    delivery_mode := c.delivery_mode
    combined_score := round3 score
    content_score := round3 (findD content_scores course_id 0)
    collab_score := round3 (findD collab_scores course_id 0)
    skills := skills
    description := c.description
    explanation := _build_explanation course_id
      (findD content_scores course_id 0) (findD collab_scores course_id 0)
      skills ds }

/-- `recommender._build_recommendation_payload`. -/
def _build_recommendation_payload (combined_scores : ScoreMap)
    (content_scores : ScoreMap) (collab_scores : ScoreMap)
    (ds : SyntheticDataset) (top_n : ℕ) : List Recommendation :=
  (rankList combined_scores top_n).map
    (fun p => mkRecommendation p.1 p.2 content_scores collab_scores ds)

/-- `dataset.student_completed_courses.get(student_id, set())`. -/
def completedOf (ds : SyntheticDataset) (student_id : String) : Finset String :=
  findD ds.student_completed_courses student_id ∅

/-- The candidate set of `recommend_for_student` for a given completed set
(uncompleted courses whose prerequisites are met). -/
def candidateH (ds : SyntheticDataset) (completed : Finset String) :
    Finset String :=
  (_candidate_courses completed ds).filter
    (fun cid => _prerequisites_met cid completed ds)

/-- The normalized content scores of the history pipeline. -/
def contentScoresH (ds : SyntheticDataset) (completed : Finset String) :
    ScoreMap :=
  _normalize (_score_content (candidateH ds completed)
    (_content_profile_from_courses (setToList completed) ds) ds)

/-- The normalized collaborative scores of the history pipeline. -/
def collabScoresH (ds : SyntheticDataset) (student_id : String)
    (completed : Finset String) : ScoreMap :=
  _normalize (_score_collaborative_history student_id
    (candidateH ds completed) completed ds)

/-- The combined score map of the history pipeline
(`0.6 * content + 0.4 * collab` per candidate). -/
def combinedH (ds : SyntheticDataset) (student_id : String)
    (completed : Finset String) : ScoreMap :=
  (setToList (candidateH ds completed)).map (fun cid =>
    (cid, qadd (qmul (mkRat 6 10) (findD (contentScoresH ds completed) cid 0))
               (qmul (mkRat 4 10) (findD (collabScoresH ds student_id completed) cid 0))))

/-- The body of `recommend_for_student` after the completed-set lookup. -/
def recommendWithHistory (ds : SyntheticDataset) (student_id : String)
    (completed : Finset String) (top_n : ℕ) : List Recommendation :=
  if candidateH ds completed = ∅ then []
  else _build_recommendation_payload (combinedH ds student_id completed)
    (contentScoresH ds completed) (collabScoresH ds student_id completed)
    ds top_n

/-- `recommender.recommend_for_student` (the snapshot passed explicitly). -/
def recommend_for_student (ds : SyntheticDataset) (student_id : String)
    (top_n : ℕ) : List Recommendation :=
  recommendWithHistory ds student_id (completedOf ds student_id) top_n

/-- `{tag for tag in interest_tags if tag}` of `recommend_for_interests`. -/
def cleanedInterests (interest_tags : List String) : Finset String :=
  (interest_tags.filter (fun t => t ≠ "")).toFinset

/-- The content profile actually used by the interest pipeline
(`_content_profile_from_interests(tuple(cleaned_interests))`). -/
def interestProfile (interest_tags : List String) : String → ℚ :=
  _content_profile_from_interests (setToList (cleanedInterests interest_tags))

/-- The candidate set of `recommend_for_interests` (all courses: no
history, so no gating). -/
def candidateI (ds : SyntheticDataset) : Finset String :=
  _candidate_courses ∅ ds

/-- The normalized content scores of the interest pipeline. -/
def contentScoresI (ds : SyntheticDataset) (interest_tags : List String) :
    ScoreMap :=
  _normalize (_score_content (candidateI ds) (interestProfile interest_tags) ds)

/-- The normalized collaborative scores of the interest pipeline. -/
def collabScoresI (ds : SyntheticDataset) (interest_tags : List String) :
    ScoreMap :=
  _normalize (_score_collaborative_interests (candidateI ds)
    (cleanedInterests interest_tags) ds)

/-- The combined score map of the interest pipeline
(`0.7 * content + 0.3 * collab` per candidate). -/
def combinedI (ds : SyntheticDataset) (interest_tags : List String) : ScoreMap :=
  (setToList (candidateI ds)).map (fun cid =>
    (cid, qadd (qmul (mkRat 7 10) (findD (contentScoresI ds interest_tags) cid 0))
               (qmul (mkRat 3 10) (findD (collabScoresI ds interest_tags) cid 0))))

/-- `recommender.recommend_for_interests` (the snapshot passed explicitly). -/
def recommend_for_interests (ds : SyntheticDataset)
    (interest_tags : List String) (top_n : ℕ) : List Recommendation :=
  if candidateI ds = ∅ then []
  else _build_recommendation_payload (combinedI ds interest_tags)
    (contentScoresI ds interest_tags) (collabScoresI ds interest_tags)
    ds top_n

/-! ### Helper lemmas -/

theorem foldl_min_le_init (l : List ℚ) (a : ℚ) : l.foldl min a ≤ a := by
  induction l generalizing a with
  | nil => exact le_refl a
  | cons x xs ih => exact le_trans (ih (min a x)) (min_le_left a x)

theorem foldl_min_le_mem {x : ℚ} {l : List ℚ} (a : ℚ) (h : x ∈ l) :
    l.foldl min a ≤ x := by
  induction l generalizing a with
  | nil => cases h
  | cons y ys ih =>
    rcases List.mem_cons.mp h with rfl | hy
    · exact le_trans (foldl_min_le_init ys (min a x)) (min_le_right a x)
    · exact ih (min a y) hy

theorem listMin_le {x : ℚ} {l : List ℚ} (h : x ∈ l) : listMin l ≤ x := by
  cases l with
  | nil => cases h
  | cons y ys =>
    rcases List.mem_cons.mp h with rfl | hy
    · exact foldl_min_le_init ys x
    · exact foldl_min_le_mem y hy

theorem init_le_foldl_max (l : List ℚ) (a : ℚ) : a ≤ l.foldl max a := by
  induction l generalizing a with
  | nil => exact le_refl a
  | cons x xs ih => exact le_trans (le_max_left a x) (ih (max a x))

theorem mem_le_foldl_max {x : ℚ} {l : List ℚ} (a : ℚ) (h : x ∈ l) :
    x ≤ l.foldl max a := by
  induction l generalizing a with
  | nil => cases h
  | cons y ys ih =>
    rcases List.mem_cons.mp h with rfl | hy
    · exact le_trans (le_max_right a x) (init_le_foldl_max ys (max a x))
    · exact ih (max a y) hy

theorem le_listMax {x : ℚ} {l : List ℚ} (h : x ∈ l) : x ≤ listMax l := by
  cases l with
  | nil => cases h
  | cons y ys =>
    rcases List.mem_cons.mp h with rfl | hy
    · exact init_le_foldl_max ys x
    · exact mem_le_foldl_max y hy

theorem foldl_min_allEq {v : ℚ} : ∀ {xs : List ℚ}, (∀ y ∈ xs, y = v) → xs.foldl min v = v
  | [], _ => rfl
  | w :: ws, h => by
    have hw : w = v := h w (by simp)
    subst hw
    rw [List.foldl_cons, min_self]
    exact foldl_min_allEq (fun y hy => h y (by simp [hy]))

theorem foldl_max_allEq {v : ℚ} : ∀ {xs : List ℚ}, (∀ y ∈ xs, y = v) → xs.foldl max v = v
  | [], _ => rfl
  | w :: ws, h => by
    have hw : w = v := h w (by simp)
    subst hw
    rw [List.foldl_cons, max_self]
    exact foldl_max_allEq (fun y hy => h y (by simp [hy]))

theorem allEq_listMin_eq_listMax {l : List ℚ}
    (h : ∀ x ∈ l, ∀ y ∈ l, x = y) : listMin l = listMax l := by
  cases l with
  | nil => rfl
  | cons v vs =>
    have hall : ∀ y ∈ vs, y = v := fun y hy => h y (by simp [hy]) v (by simp)
    show vs.foldl min v = vs.foldl max v
    rw [foldl_min_allEq hall, foldl_max_allEq hall]

theorem allEq_of_listMin_eq_listMax {l : List ℚ} (h : listMin l = listMax l) :
    ∀ x ∈ l, ∀ y ∈ l, x = y := by
  intro x hx y hy
  have h1 : x = listMin l := le_antisymm (h ▸ le_listMax hx) (listMin_le hx)
  have h2 : y = listMin l := le_antisymm (h ▸ le_listMax hy) (listMin_le hy)
  rw [h1, h2]

theorem findD_maddTo (m : ScoreMap) (k k' : String) (v : ℚ) :
    findD (maddTo m k v) k' 0 = findD m k' 0 + if k' = k then v else 0 := by
  induction m with
  | nil =>
    by_cases h : k' = k
    · subst h; simp [maddTo, findD]
    · simp [maddTo, findD, h, Ne.symm h]
  | cons p rest ih =>
    by_cases hp : p.1 = k
    · rw [maddTo, if_pos hp]
      by_cases hk : k' = k
      · have : p.1 = k' := hp.trans hk.symm
        simp [findD, this, hk, qadd_eq]
      · have : p.1 ≠ k' := fun hc => hk (hc.symm.trans hp)
        simp [findD, this, hk]
    · rw [maddTo, if_neg hp]
      by_cases hpk : p.1 = k'
      · simp [findD, hpk, if_pos rfl]
        intro hc
        exact absurd (hpk.trans hc) hp
      · simp [findD, hpk, ih]

theorem findD_absent {α : Type} {m : List (String × α)} {k : String}
    (h : k ∉ m.map Prod.fst) (d : α) : findD m k d = d := by
  induction m with
  | nil => rfl
  | cons p rest ih =>
    simp only [List.map_cons, List.mem_cons, not_or] at h
    rw [findD, if_neg (fun hc => h.1 hc.symm)]
    exact ih h.2

theorem findD_eq_default_or_mem {α : Type} (m : List (String × α)) (k : String)
    (d : α) : findD m k d = d ∨ ∃ p ∈ m, p.1 = k ∧ findD m k d = p.2 := by
  induction m with
  | nil => exact Or.inl rfl
  | cons p rest ih =>
    by_cases hp : p.1 = k
    · right; exact ⟨p, by simp, hp, by rw [findD, if_pos hp]⟩
    · rw [findD, if_neg hp]
      rcases ih with h | ⟨q, hq, hk, he⟩
      · exact Or.inl h
      · right; exact ⟨q, by simp [hq], hk, he⟩

theorem findD_bounds {m : ScoreMap} (h : ∀ p ∈ m, 0 ≤ p.2 ∧ p.2 ≤ 1)
    (k : String) : 0 ≤ findD m k 0 ∧ findD m k 0 ≤ 1 := by
  rcases findD_eq_default_or_mem m k 0 with he | ⟨p, hp, _, he⟩
  · rw [he]; norm_num
  · rw [he]; exact h p hp

theorem findD_map_mk {l : List String} {c : String} (v : ℚ) (h : c ∈ l) :
    findD (l.map (fun cid => (cid, v))) c 0 = v := by
  induction l with
  | nil => cases h
  | cons x xs ih =>
    rcases List.mem_cons.mp h with rfl | hx
    · simp [findD]
    · by_cases hxc : x = c
      · subst hxc; simp [findD]
      · simp only [List.map_cons]
        rw [findD, if_neg hxc]
        exact ih hx

theorem _normalize_allEq {m : ScoreMap} (h : ∀ p ∈ m, ∀ q ∈ m, p.2 = q.2) :
    _normalize m = m.map (fun p => (p.1, 1)) := by
  by_cases hm : m = []
  · subst hm; rfl
  · have hall : ∀ x ∈ m.map Prod.snd, ∀ y ∈ m.map Prod.snd, x = y := by
      intro x hx y hy
      rcases List.mem_map.mp hx with ⟨p, hp, rfl⟩
      rcases List.mem_map.mp hy with ⟨q, hq, rfl⟩
      exact h p hp q hq
    rw [_normalize, if_neg hm]
    simp only [if_pos (allEq_listMin_eq_listMax hall).symm]

theorem _normalize_spread {m : ScoreMap} (h : ¬ ∀ p ∈ m, ∀ q ∈ m, p.2 = q.2) :
    _normalize m = m.map (fun p =>
      (p.1, (p.2 - listMin (m.map Prod.snd)) /
        (listMax (m.map Prod.snd) - listMin (m.map Prod.snd)))) := by
  have hm : m ≠ [] := by rintro rfl; exact h (by simp)
  have hne : listMax (m.map Prod.snd) ≠ listMin (m.map Prod.snd) := by
    intro he
    refine h fun p hp q hq => ?_
    exact allEq_of_listMin_eq_listMax he.symm p.2
      (List.mem_map.mpr ⟨p, hp, rfl⟩) q.2 (List.mem_map.mpr ⟨q, hq, rfl⟩)
  rw [_normalize, if_neg hm]
  simp only [if_neg hne, qdiv_eq, qsub_eq]

theorem _normalize_bounds {m : ScoreMap} :
    ∀ p ∈ _normalize m, 0 ≤ p.2 ∧ p.2 ≤ 1 := by
  by_cases hall : ∀ p ∈ m, ∀ q ∈ m, p.2 = q.2
  · rw [_normalize_allEq hall]
    intro p hp
    rcases List.mem_map.mp hp with ⟨q, _, rfl⟩
    norm_num
  · rw [_normalize_spread hall]
    intro p hp
    rcases List.mem_map.mp hp with ⟨q, hq, rfl⟩
    have hvmem : q.2 ∈ m.map Prod.snd := List.mem_map.mpr ⟨q, hq, rfl⟩
    have h1 : listMin (m.map Prod.snd) ≤ q.2 := listMin_le hvmem
    have h2 : q.2 ≤ listMax (m.map Prod.snd) := le_listMax hvmem
    have hlt : listMin (m.map Prod.snd) < listMax (m.map Prod.snd) := by
      rcases lt_or_eq_of_le (le_trans h1 h2) with hlt | he
      · exact hlt
      · exact absurd (a := ∀ p ∈ m, ∀ q ∈ m, p.2 = q.2)
          (fun p hp q hq => allEq_of_listMin_eq_listMax he p.2
            (List.mem_map.mpr ⟨p, hp, rfl⟩) q.2 (List.mem_map.mpr ⟨q, hq, rfl⟩))
          hall
    constructor
    · exact div_nonneg (by linarith) (by linarith)
    · rw [div_le_one (by linarith)]; linarith

theorem _normalize_keys (m : ScoreMap) :
    (_normalize m).map Prod.fst = m.map Prod.fst := by
  by_cases hall : ∀ p ∈ m, ∀ q ∈ m, p.2 = q.2
  · rw [_normalize_allEq hall, List.map_map]; rfl
  · rw [_normalize_spread hall, List.map_map]; rfl

theorem mkRat_6_10 : (mkRat 6 10 : ℚ) = 0.6 := by norm_num [Rat.mkRat_eq_div]

theorem mkRat_4_10 : (mkRat 4 10 : ℚ) = 0.4 := by norm_num [Rat.mkRat_eq_div]

theorem mkRat_7_10 : (mkRat 7 10 : ℚ) = 0.7 := by norm_num [Rat.mkRat_eq_div]

theorem mkRat_3_10 : (mkRat 3 10 : ℚ) = 0.3 := by norm_num [Rat.mkRat_eq_div]

theorem round_mono_q {x y : ℚ} (h : x ≤ y) : round x ≤ round y := by
  rw [round_eq, round_eq]
  exact Int.floor_le_floor (by linarith)

theorem round3_bounds {q : ℚ} (h0 : 0 ≤ q) (h1 : q ≤ 1) :
    0 ≤ round3 q ∧ round3 q ≤ 1 := by
  rw [round3_eq]
  have hlo : (0 : ℤ) ≤ round (q * 1000) := by
    have h := round_mono_q (x := 0) (y := q * 1000) (by nlinarith)
    simpa using h
  have hhi : round (q * 1000) ≤ 1000 := by
    have hc : ((1000 : ℤ) : ℚ) = (1000 : ℚ) := by norm_num
    have h := round_mono_q (x := q * 1000) (y := ((1000 : ℤ) : ℚ))
      (by rw [hc]; nlinarith)
    rwa [round_intCast] at h
  constructor
  · exact div_nonneg (by exact_mod_cast hlo) (by norm_num)
  · rw [div_le_one (by norm_num)]
    exact_mod_cast hhi

theorem round3_zero_eq : round3 0 = 0 := by decide

theorem round3_one_eq : round3 1 = 1 := by decide

theorem mem_payload {comb cont coll : ScoreMap} {ds : SyntheticDataset}
    {n : ℕ} {r : Recommendation}
    (h : r ∈ _build_recommendation_payload comb cont coll ds n) :
    ∃ p, p ∈ comb ∧ r = mkRecommendation p.1 p.2 cont coll ds := by
  rcases List.mem_map.mp h with ⟨p, hp, rfl⟩
  refine ⟨p, ?_, rfl⟩
  have h1 : p ∈ List.insertionSort rankR comb := List.take_subset n _ hp
  exact (List.perm_insertionSort rankR comb).mem_iff.mp h1

theorem mem_combinedH {ds : SyntheticDataset} {sid : String}
    {comp : Finset String} {p : String × ℚ} (h : p ∈ combinedH ds sid comp) :
    p.1 ∈ candidateH ds comp ∧
    p.2 = (0.6 : ℚ) * findD (contentScoresH ds comp) p.1 0
        + (0.4 : ℚ) * findD (collabScoresH ds sid comp) p.1 0 := by
  rcases List.mem_map.mp h with ⟨cid, hcid, rfl⟩
  exact ⟨mem_setToList.mp hcid, by simp [qadd_eq, qmul_eq, mkRat_6_10, mkRat_4_10]⟩

theorem mem_combinedI {ds : SyntheticDataset} {tags : List String}
    {p : String × ℚ} (h : p ∈ combinedI ds tags) :
    p.1 ∈ candidateI ds ∧
    p.2 = (0.7 : ℚ) * findD (contentScoresI ds tags) p.1 0
        + (0.3 : ℚ) * findD (collabScoresI ds tags) p.1 0 := by
  rcases List.mem_map.mp h with ⟨cid, hcid, rfl⟩
  exact ⟨mem_setToList.mp hcid, by simp [qadd_eq, qmul_eq, mkRat_7_10, mkRat_3_10]⟩

theorem combinedH_keys (ds : SyntheticDataset) (sid : String)
    (comp : Finset String) :
    (combinedH ds sid comp).map Prod.fst = setToList (candidateH ds comp) := by
  rw [combinedH, List.map_map]
  exact List.map_id _

theorem combinedI_keys (ds : SyntheticDataset) (tags : List String) :
    (combinedI ds tags).map Prod.fst = setToList (candidateI ds) := by
  rw [combinedI, List.map_map]
  exact List.map_id _

theorem sorted_setToList (s : Finset String) :
    List.Sorted strR (setToList s) := by
  rcases s with ⟨m, nd⟩
  induction m using Quotient.inductionOn with
  | h l => exact List.sorted_insertionSort strR l

theorem findD_innerFold {completed candidate : Finset String} {s : ℚ} :
    ∀ (li : List String) (m : ScoreMap) (c : String), li.Nodup →
    findD (li.foldl (fun m2 cid =>
      if cid ∈ completed ∨ cid ∉ candidate then m2 else maddTo m2 cid s) m) c 0
      = findD m c 0 +
        if c ∈ li ∧ c ∉ completed ∧ c ∈ candidate then s else 0 := by
  intro li
  induction li with
  | nil => intro m c _; simp
  | cons x xs ih =>
    intro m c hnd
    rcases List.nodup_cons.mp hnd with ⟨hx, hxs⟩
    rw [List.foldl_cons]
    by_cases hg : x ∈ completed ∨ x ∉ candidate
    · rw [if_pos hg, ih m c hxs]
      by_cases hcx : c = x
      · subst hcx
        have h1 : ¬(c ∈ xs ∧ c ∉ completed ∧ c ∈ candidate) := fun hc => hx hc.1
        have h2 : ¬(c ∈ c :: xs ∧ c ∉ completed ∧ c ∈ candidate) := fun hc =>
          (by tauto : ¬(c ∉ completed ∧ c ∈ candidate)) hc.2
        rw [if_neg h1, if_neg h2]
      · have : (c ∈ x :: xs ∧ c ∉ completed ∧ c ∈ candidate) ↔
            (c ∈ xs ∧ c ∉ completed ∧ c ∈ candidate) := by
          constructor
          · rintro ⟨hm, h2, h3⟩
            rcases List.mem_cons.mp hm with rfl | hm
            · exact absurd rfl hcx
            · exact ⟨hm, h2, h3⟩
          · rintro ⟨hm, h2, h3⟩; exact ⟨List.mem_cons_of_mem x hm, h2, h3⟩
        rw [if_congr this rfl rfl]
    · rw [if_neg hg, ih (maddTo m x s) c hxs, findD_maddTo]
      push_neg at hg
      by_cases hcx : c = x
      · subst hcx
        have h1 : ¬(c ∈ xs ∧ c ∉ completed ∧ c ∈ candidate) := fun hc => hx hc.1
        have h2 : c ∈ c :: xs ∧ c ∉ completed ∧ c ∈ candidate :=
          ⟨List.mem_cons_self c xs, hg.1, hg.2⟩
        rw [if_neg h1, if_pos h2, if_pos rfl]
        ring
      · have : (c ∈ x :: xs ∧ c ∉ completed ∧ c ∈ candidate) ↔
            (c ∈ xs ∧ c ∉ completed ∧ c ∈ candidate) := by
          constructor
          · rintro ⟨hm, h2, h3⟩
            rcases List.mem_cons.mp hm with rfl | hm
            · exact absurd rfl hcx
            · exact ⟨hm, h2, h3⟩
          · rintro ⟨hm, h2, h3⟩; exact ⟨List.mem_cons_of_mem x hm, h2, h3⟩
        rw [if_congr this rfl rfl, if_neg hcx]
        ring

theorem findD_historyFold (students : List (String × Finset String))
    (sid : String) (candidate completed : Finset String) (m : ScoreMap)
    (c : String) :
    findD (students.foldl (historyStep sid candidate completed) m) c 0
      = findD m c 0 + (students.map (fun p =>
          if p.1 ≠ sid ∧ (completed ∩ p.2).card ≠ 0 ∧ c ∈ p.2 ∧
             c ∉ completed ∧ c ∈ candidate
          then jaccard completed p.2 else 0)).sum := by
  induction students generalizing m with
  | nil => simp
  | cons p ps ih =>
    rw [List.foldl_cons, ih, List.map_cons, List.sum_cons]
    have hstep : findD (historyStep sid candidate completed m p) c 0
        = findD m c 0 +
          if p.1 ≠ sid ∧ (completed ∩ p.2).card ≠ 0 ∧ c ∈ p.2 ∧
             c ∉ completed ∧ c ∈ candidate
          then jaccard completed p.2 else 0 := by
      rw [historyStep]
      by_cases h1 : p.1 = sid
      · rw [if_pos h1, if_neg (by tauto)]
        ring
      · rw [if_neg h1]
        by_cases h2 : (completed ∩ p.2).card = 0
        · rw [if_pos h2, if_neg (by tauto)]
          ring
        · rw [if_neg h2]
          have hu : (completed ∪ p.2).card ≠ 0 := by
            intro hc
            exact h2 (Nat.le_zero.mp (hc ▸ Finset.card_le_card
              (Finset.inter_subset_union)))
          rw [if_neg hu]
          have hsim : qdiv (((completed ∩ p.2).card : ℚ))
              (((completed ∪ p.2).card : ℚ)) = jaccard completed p.2 := by
            rw [qdiv_eq]; rfl
          have hpos : ¬ (qdiv (((completed ∩ p.2).card : ℚ))
              (((completed ∪ p.2).card : ℚ)) ≤ 0) := by
            rw [hsim]
            push_neg
            exact div_pos (by exact_mod_cast Nat.pos_of_ne_zero h2)
              (by exact_mod_cast Nat.pos_of_ne_zero hu)
          rw [if_neg hpos]
          rw [findD_innerFold (setToList p.2) m c (nodup_setToList p.2), hsim]
          have hmem : c ∈ setToList p.2 ↔ c ∈ p.2 := mem_setToList
          by_cases h3 : c ∈ p.2 ∧ c ∉ completed ∧ c ∈ candidate
          · rw [if_pos (by rw [hmem]; exact h3), if_pos (by tauto)]
          · rw [if_neg (by rw [hmem]; exact h3), if_neg (by tauto)]
    rw [hstep]
    ring

theorem foldl_fixed_of_id {α β : Type} (f : β → α → β) (h : ∀ b a, f b a = b) :
    ∀ (l : List α) (b : β), l.foldl f b = b := by
  intro l
  induction l with
  | nil => intro b; rfl
  | cons x xs ih => intro b; rw [List.foldl_cons, h b x]; exact ih b

theorem historyStep_empty_completed (sid : String) (cand : Finset String)
    (m : ScoreMap) (p : String × Finset String) :
    historyStep sid cand ∅ m p = m := by
  rw [historyStep]
  by_cases h1 : p.1 = sid
  · rw [if_pos h1]
  · rw [if_neg h1]
    simp

theorem collab_history_empty_completed (sid : String) (cand : Finset String)
    (ds : SyntheticDataset) :
    _score_collaborative_history sid cand ∅ ds = [] := by
  rw [_score_collaborative_history]
  exact foldl_fixed_of_id _ (historyStep_empty_completed sid cand) _ []

instance rankR.isTotal : IsTotal (String × ℚ) rankR :=
  ⟨fun a b => by
    rcases lt_trichotomy a.2 b.2 with h | h | h
    · exact Or.inr (Or.inl h)
    · rcases total_of strR a.1 b.1 with hs | hs
      · exact Or.inl (Or.inr ⟨h, hs⟩)
      · exact Or.inr (Or.inr ⟨h.symm, hs⟩)
    · exact Or.inl (Or.inl h)⟩

instance rankR.isTrans : IsTrans (String × ℚ) rankR :=
  ⟨fun a b c hab hbc => by
    rcases hab with h1 | ⟨h1, hs1⟩
    · rcases hbc with h2 | ⟨h2, _⟩
      · exact Or.inl (lt_trans h2 h1)
      · exact Or.inl (h2 ▸ h1)
    · rcases hbc with h2 | ⟨h2, hs2⟩
      · exact Or.inl (by rw [h1]; exact h2)
      · exact Or.inr ⟨h1.trans h2, trans_of strR hs1 hs2⟩⟩

/-- The strict version of the payload ranking order: strictly higher
combined score, or an equal score and a strictly smaller course
identifier.  On lists with distinct course identifiers this is a strict
total order, so at most one ordering of any given entries satisfies it. -/
def strictRank (a b : String × ℚ) : Prop :=
  b.2 < a.2 ∨ (a.2 = b.2 ∧ a.1 ≠ b.1 ∧ strR a.1 b.1)

instance strictRank.isAntisymm : IsAntisymm (String × ℚ) strictRank :=
  ⟨fun a b hab hba => by
    rcases hab with h1 | ⟨h1, hne1, hs1⟩
    · rcases hba with h2 | ⟨h2, _, _⟩
      · exact absurd h1 (asymm h2)
      · exact absurd h2 (ne_of_lt h1)
    · rcases hba with h2 | ⟨_, hne2, hs2⟩
      · exact absurd (h1 ▸ h2) (lt_irrefl _)
      · exact absurd (antisymm_of strR hs1 hs2) hne1⟩

theorem pairwise_strictRank_of_sorted {l : List (String × ℚ)}
    (hs : l.Pairwise rankR) (hn : (l.map Prod.fst).Nodup) :
    l.Pairwise strictRank := by
  have hn' : l.Pairwise (fun a b : String × ℚ => a.1 ≠ b.1) :=
    List.pairwise_map.mp hn
  refine (hs.and hn').imp ?_
  rintro a b ⟨hr, hne⟩
  rcases hr with h | ⟨h, hs'⟩
  · exact Or.inl h
  · exact Or.inr ⟨h, hne, hs'⟩

theorem rankList_pairwise {comb : ScoreMap} (n : ℕ)
    (hn : (comb.map Prod.fst).Nodup) :
    (rankList comb n).Pairwise strictRank := by
  have hsorted : (List.insertionSort rankR comb).Pairwise rankR :=
    List.sorted_insertionSort rankR comb
  have hnodup : ((List.insertionSort rankR comb).map Prod.fst).Nodup :=
    (((List.perm_insertionSort rankR comb).map Prod.fst).nodup_iff).mpr hn
  exact (pairwise_strictRank_of_sorted hsorted hnodup).sublist
    (List.take_sublist n _)

theorem eq_of_perm_of_pairwise_strictRank {l₁ l₂ : List (String × ℚ)}
    (hp : l₁.Perm l₂) (h₁ : l₁.Pairwise strictRank)
    (h₂ : l₂.Pairwise strictRank) : l₁ = l₂ :=
  List.eq_of_perm_of_sorted hp h₁ h₂

theorem qadd_zero (a : ℚ) : qadd a 0 = a := by rw [qadd_eq, add_zero]

theorem foldl_qadd_zero (l : List String) (a : ℚ) :
    l.foldl (fun s _ => qadd s 0) a = a := by
  induction l generalizing a with
  | nil => rfl
  | cons x xs ih => rw [List.foldl_cons, qadd_zero]; exact ih a

theorem foldl_qadd_mul_zero (l : List String) (a : ℚ) :
    l.foldl (fun s _ => qadd s (qmul (mkRat 1 10) 0)) a = a := by
  have hz : qmul (mkRat 1 10) 0 = 0 := by rw [qmul_eq, mul_zero]
  induction l generalizing a with
  | nil => rfl
  | cons x xs ih => rw [List.foldl_cons, hz, qadd_zero]; exact ih a

theorem score_content_emptyCounter (cand : Finset String)
    (ds : SyntheticDataset) :
    _score_content cand emptyCounter ds
      = (setToList cand).map (fun cid => (cid, 0)) := by
  rw [_score_content]
  refine List.map_congr_left (fun cid _ => ?_)
  simp only [emptyCounter]
  rw [foldl_qadd_zero, qadd_zero, qadd_zero, foldl_qadd_mul_zero]

theorem foldl_cadd_count (tags : List String) (p : String → ℚ) (t : String) :
    (tags.foldl (fun pr tag => cadd pr tag 1) p) t
      = p t + (tags.count t : ℚ) := by
  induction tags generalizing p with
  | nil => rw [List.foldl_nil, List.count_nil]; norm_num
  | cons x xs ih =>
    rw [List.foldl_cons, ih]
    by_cases hx : t = x
    · subst hx
      rw [cadd, if_pos rfl, qadd_eq, List.count_cons_self]
      push_cast
      ring
    · rw [cadd, if_neg hx, List.count_cons_of_ne hx]

instance strictRank.decRel : DecidableRel strictRank := fun _ _ =>
  instDecidableOr

/-- A small concrete snapshot used by the witnesses below. -/
def dsA : SyntheticDataset :=
  { courses := [
      ("c1", { course_code := "C1", title := "T1", category := "ai",
               delivery_mode := "online", description := "d1",
               prerequisites := "", term_patterns := "Fall" }),
      ("c2", { course_code := "C2", title := "T2", category := "ai",
               delivery_mode := "online", description := "d2",
               prerequisites := "c1", term_patterns := "" }),
      ("c3", { course_code := "C3", title := "T3", category := "sys",
               delivery_mode := "campus", description := "d3",
               prerequisites := "c9", term_patterns := "" })]
    student_completed_courses := [("s1", {"c1"}), ("s2", {"c1", "c2"})]
    student_interest_tags := [("s1", {"ai", "python"}), ("s2", {"ml"})]
    course_skill_tags := [("c1", {"python"}), ("c2", {"python", "stats"}),
                          ("c3", ∅)]
    collaborative_matrix := [("c1", {"s1", "s2"}), ("c2", {"s2"})] }

/-- The single record returned by `recommend_for_student dsA "s1" 6`. -/
def recA : Recommendation :=
  { course_id := "c2", course_code := "C2", title := "T2", category := "ai"
    delivery_mode := "online", combined_score := 1, content_score := 1
    collab_score := 1, skills := ["python", "stats"], description := "d2"
    explanation :=
      "matches your focus on python, stats and popular with 1 similar students" }

/-- C2: the normalizer returns the empty map on empty input; maps every
key to 1.0 when all input values are equal; otherwise maps each value `v`
to `(v - min) / (max - min)`; and every returned value lies in `[0, 1]`. -/
theorem c2_normalize_spec :
    (_normalize [] = ([] : ScoreMap)) ∧
    (∀ m : ScoreMap, (∀ p ∈ m, ∀ q ∈ m, p.2 = q.2) →
      _normalize m = m.map (fun p => (p.1, 1))) ∧
    (∀ m : ScoreMap, ¬(∀ p ∈ m, ∀ q ∈ m, p.2 = q.2) →
      _normalize m = m.map (fun p => (p.1,
        (p.2 - listMin (m.map Prod.snd)) /
          (listMax (m.map Prod.snd) - listMin (m.map Prod.snd))))) ∧
    (∀ m : ScoreMap, ∀ p ∈ _normalize m, 0 ≤ p.2 ∧ p.2 ≤ 1) :=
  ⟨rfl, fun _ h => _normalize_allEq h, fun _ h => _normalize_spread h,
   fun _ => _normalize_bounds⟩

theorem c2_normalize_spec_witness :
    _normalize [("a", 2), ("b", 2)] = [("a", 1), ("b", 1)] ∧
    _normalize [("a", 2), ("b", 4)] = [("a", 0), ("b", 1)] := by
  constructor
  · have h := c2_normalize_spec.2.1 [("a", 2), ("b", 2)] (by decide)
    simpa using h
  · have h := c2_normalize_spec.2.2.1 [("a", 2), ("b", 4)] (by decide)
    rw [h]
    have hmin : listMin ([("a", (2 : ℚ)), ("b", 4)].map Prod.snd) = 2 := by decide
    have hmax : listMax ([("a", (2 : ℚ)), ("b", 4)].map Prod.snd) = 4 := by decide
    rw [hmin, hmax]
    norm_num

/-- C5: in both entry modes the result length is
`min top_n (candidate count)`; in particular `top_n = 0` yields the empty
list and a `top_n` beyond the candidate count returns exactly all
candidates. -/
theorem c5_top_n_truncation :
    ∀ (ds : SyntheticDataset) (sid : String) (tags : List String) (n : ℕ),
      (recommend_for_student ds sid n).length
        = min n (candidateH ds (completedOf ds sid)).card ∧
      (recommend_for_interests ds tags n).length
        = min n (candidateI ds).card ∧
      recommend_for_student ds sid 0 = [] ∧
      recommend_for_interests ds tags 0 = [] := by
  have hpay : ∀ (comb cont coll : ScoreMap) (ds : SyntheticDataset) (n : ℕ),
      (_build_recommendation_payload comb cont coll ds n).length
        = min n comb.length := by
    intro comb cont coll ds n
    rw [_build_recommendation_payload, List.length_map, rankList,
      List.length_take, (List.perm_insertionSort rankR comb).length_eq]
  have hs : ∀ (ds : SyntheticDataset) (sid : String) (n : ℕ),
      (recommend_for_student ds sid n).length
        = min n (candidateH ds (completedOf ds sid)).card := by
    intro ds sid n
    rw [recommend_for_student, recommendWithHistory]
    by_cases hc : candidateH ds (completedOf ds sid) = ∅
    · rw [if_pos hc, hc]
      simp
    · rw [if_neg hc, hpay, combinedH, List.length_map, length_setToList]
  have hi : ∀ (ds : SyntheticDataset) (tags : List String) (n : ℕ),
      (recommend_for_interests ds tags n).length
        = min n (candidateI ds).card := by
    intro ds tags n
    rw [recommend_for_interests]
    by_cases hc : candidateI ds = ∅
    · rw [if_pos hc, hc]
      simp
    · rw [if_neg hc, hpay, combinedI, List.length_map, length_setToList]
  intro ds sid tags n
  refine ⟨hs ds sid n, hi ds tags n, ?_, ?_⟩
  · exact List.length_eq_zero.mp (by rw [hs ds sid 0]; simp)
  · exact List.length_eq_zero.mp (by rw [hi ds tags 0]; simp)

/-- C4: a history-mode result never contains a completed course, nor a
course whose prerequisite set is not contained in the requester's
completed set; and a course whose prerequisites field is empty is always
eligible. -/
theorem c4_history_filtering :
    ∀ (ds : SyntheticDataset) (sid : String) (n : ℕ) (r : Recommendation)
      (c : String) (completed : Finset String),
      (r ∈ recommend_for_student ds sid n →
        r.course_id ∉ completedOf ds sid ∧
        _split_to_set ((findD ds.courses r.course_id defaultCourse).prerequisites)
          ⊆ completedOf ds sid) ∧
      ((findD ds.courses c defaultCourse).prerequisites = "" →
        _prerequisites_met c completed ds = true) := by
  intro ds sid n r c completed
  constructor
  · intro hr
    rw [recommend_for_student, recommendWithHistory] at hr
    by_cases hc : candidateH ds (completedOf ds sid) = ∅
    · rw [if_pos hc] at hr
      cases hr
    · rw [if_neg hc] at hr
      rcases mem_payload hr with ⟨p, hp, rfl⟩
      have hcid : p.1 ∈ candidateH ds (completedOf ds sid) := (mem_combinedH hp).1
      rw [candidateH, Finset.mem_filter] at hcid
      rcases hcid with ⟨hcand, hmet⟩
      rw [_candidate_courses, Finset.mem_filter] at hcand
      have hid : (mkRecommendation p.1 p.2
          (contentScoresH ds (completedOf ds sid))
          (collabScoresH ds sid (completedOf ds sid)) ds).course_id = p.1 := rfl
      rw [hid]
      refine ⟨hcand.2, ?_⟩
      rw [_prerequisites_met] at hmet
      by_cases hpre : (findD ds.courses p.1 defaultCourse).prerequisites = ""
      · rw [hpre]
        have hempty : _split_to_set "" = ∅ := by decide
        rw [hempty]
        exact Finset.empty_subset _
      · rw [if_neg hpre] at hmet
        exact of_decide_eq_true hmet
  · intro hpre
    rw [_prerequisites_met, hpre]
    rfl

theorem c4_history_filtering_witness :
    recA.course_id ∉ completedOf dsA "s1" ∧
    _split_to_set ((findD dsA.courses recA.course_id defaultCourse).prerequisites)
      ⊆ completedOf dsA "s1" ∧
    _prerequisites_met "c1" ∅ dsA = true := by
  obtain ⟨h1, h2⟩ := (c4_history_filtering dsA "s1" 6 recA "c1" ∅).1 (by decide)
  exact ⟨h1, h2, (c4_history_filtering dsA "s1" 6 recA "c1" ∅).2 (by decide)⟩

/-- C7: the history-variant collaborative score of an eligible candidate
course equals the sum, over the other students whose completed set meets
the requester's, of the Jaccard similarity of the two completed sets,
counted once per such student who completed that course; courses outside
the candidate set or already completed accumulate nothing. -/
theorem c7_collab_history_spec :
    ∀ (ds : SyntheticDataset) (sid : String)
      (candidate completed : Finset String) (c : String),
      (c ∈ candidate → c ∉ completed →
        findD (_score_collaborative_history sid candidate completed ds) c 0
          = (ds.student_completed_courses.map (fun p =>
              if p.1 ≠ sid ∧ (completed ∩ p.2).Nonempty ∧ c ∈ p.2
              then jaccard completed p.2 else 0)).sum) ∧
      (c ∉ candidate ∨ c ∈ completed →
        findD (_score_collaborative_history sid candidate completed ds) c 0
          = 0) := by
  intro ds sid candidate completed c
  have hbase := findD_historyFold ds.student_completed_courses sid candidate
    completed [] c
  rw [_score_collaborative_history]
  constructor
  · intro hcand hcomp
    rw [hbase]
    have hcongr : ∀ p ∈ ds.student_completed_courses,
        (if p.1 ≠ sid ∧ (completed ∩ p.2).card ≠ 0 ∧ c ∈ p.2 ∧
            c ∉ completed ∧ c ∈ candidate
         then jaccard completed p.2 else 0)
          = (if p.1 ≠ sid ∧ (completed ∩ p.2).Nonempty ∧ c ∈ p.2
             then jaccard completed p.2 else 0) := by
      intro p _
      have hiff : (p.1 ≠ sid ∧ (completed ∩ p.2).card ≠ 0 ∧ c ∈ p.2 ∧
          c ∉ completed ∧ c ∈ candidate) ↔
          (p.1 ≠ sid ∧ (completed ∩ p.2).Nonempty ∧ c ∈ p.2) := by
        rw [Finset.card_ne_zero]
        tauto
      rw [if_congr hiff rfl rfl]
    rw [List.map_congr_left hcongr]
    show (0 : ℚ) + _ = _
    rw [zero_add]
  · intro hbad
    rw [hbase]
    have hz : (List.map (fun p : String × Finset String =>
        if p.1 ≠ sid ∧ (completed ∩ p.2).card ≠ 0 ∧ c ∈ p.2 ∧
           c ∉ completed ∧ c ∈ candidate
        then jaccard completed p.2 else 0) ds.student_completed_courses).sum
        = 0 := by
      refine List.sum_eq_zero (fun x hx => ?_)
      rcases List.mem_map.mp hx with ⟨p, _, rfl⟩
      rw [if_neg (by tauto)]
    rw [hz]
    show (0 : ℚ) + 0 = 0
    norm_num

theorem c7_collab_history_spec_witness :
    findD (_score_collaborative_history "s1" {"c2", "c3"} {"c1"} dsA) "c2" 0
      = 1 / 2 ∧
    findD (_score_collaborative_history "s1" {"c2", "c3"} {"c1"} dsA) "c1" 0
      = 0 := by
  constructor
  · have h := (c7_collab_history_spec dsA "s1" {"c2", "c3"} {"c1"} "c2").1
      (by decide) (by decide)
    rw [h, show dsA.student_completed_courses
        = [("s1", ({"c1"} : Finset String)),
           ("s2", ({"c1", "c2"} : Finset String))] from rfl]
    simp only [List.map_cons, List.map_nil, List.sum_cons, List.sum_nil]
    rw [if_neg (by decide), if_pos (by decide), jaccard]
    have h1 : (({"c1"} : Finset String) ∩ {"c1", "c2"}).card = 1 := by decide
    have h2 : (({"c1"} : Finset String) ∪ {"c1", "c2"}).card = 2 := by decide
    rw [h1, h2]
    norm_num
  · exact (c7_collab_history_spec dsA "s1" {"c2", "c3"} {"c1"} "c1").2
      (Or.inr (by decide))

/-- C8: an unknown student identifier is not an error: the result is the
one computed for an empty completed set, it agrees between any two
unknown identifiers, and history mode never reads the interest tags. -/
theorem c8_unknown_student :
    ∀ (ds : SyntheticDataset) (sid sid2 : String) (n : ℕ)
      (its : List (String × Finset String)),
      (sid ∉ ds.student_completed_courses.map Prod.fst →
        recommend_for_student ds sid n = recommendWithHistory ds sid ∅ n) ∧
      (sid ∉ ds.student_completed_courses.map Prod.fst →
       sid2 ∉ ds.student_completed_courses.map Prod.fst →
        recommend_for_student ds sid n = recommend_for_student ds sid2 n) ∧
      (recommend_for_student { ds with student_interest_tags := its } sid n
        = recommend_for_student ds sid n) := by
  have hindep : ∀ (ds : SyntheticDataset) (a b : String) (n : ℕ),
      recommendWithHistory ds a ∅ n = recommendWithHistory ds b ∅ n := by
    intro ds a b n
    simp only [recommendWithHistory, combinedH, collabScoresH,
      collab_history_empty_completed]
  intro ds sid sid2 n its
  refine ⟨?_, ?_, rfl⟩
  · intro h
    rw [recommend_for_student, completedOf, findD_absent h]
  · intro h1 h2
    rw [recommend_for_student, completedOf, findD_absent h1,
      recommend_for_student, completedOf, findD_absent h2]
    exact hindep ds sid sid2 n

theorem c8_unknown_student_witness :
    recommend_for_student dsA "ghost" 2 = recommendWithHistory dsA "ghost" ∅ 2 ∧
    recommend_for_student dsA "ghost" 2 = recommend_for_student dsA "phantom" 2 :=
  ⟨(c8_unknown_student dsA "ghost" "phantom" 2 []).1 (by decide),
   (c8_unknown_student dsA "ghost" "phantom" 2 []).2.1 (by decide) (by decide)⟩

/-- C6 counterexample: in interest mode a tag supplied twice does not get
weight 2 in the profile used for content scoring (the entry mode
deduplicates the tags first), refuting the claim at the input
`["a", "a"]`. -/
theorem c6_counterexample :
    ¬ interestProfile ["a", "a"] "a" = ((["a", "a"].count "a" : ℕ) : ℚ) := by
  decide

/-- C6 (amended): the profile builder itself assigns weight 1.0 per
occurrence of its input sequence (a tag occurring k times gets weight k),
but `recommend_for_interests` deduplicates (and drops blank) tags before
building the profile, so the profile used for content scoring assigns
weight 1 to each distinct non-blank supplied tag — k occurrences yield
weight 1, not k. -/
theorem c6_interest_profile_dedup :
    ∀ (tags : List String) (t : String),
      _content_profile_from_interests tags t = (tags.count t : ℚ) ∧
      interestProfile tags t
        = if t ∈ cleanedInterests tags then 1 else 0 := by
  intro tags t
  constructor
  · rw [_content_profile_from_interests, foldl_cadd_count, emptyCounter,
      zero_add]
  · rw [interestProfile, _content_profile_from_interests, foldl_cadd_count,
      emptyCounter, zero_add]
    by_cases hmem : t ∈ cleanedInterests tags
    · rw [if_pos hmem,
        List.count_eq_one_of_mem (nodup_setToList _) (mem_setToList.mpr hmem)]
      norm_num
    · rw [if_neg hmem,
        List.count_eq_zero.mpr (fun hc => hmem (mem_setToList.mp hc))]
      norm_num

/-- The single record returned by
`_build_recommendation_payload [("c1", 1)] [("c1", 1)] [] dsA 1`. -/
def recB : Recommendation :=
  { course_id := "c1", course_code := "C1", title := "T1", category := "ai"
    delivery_mode := "online", combined_score := 1, content_score := 1
    collab_score := 0, skills := ["python"], description := "d1"
    explanation := "matches your focus on python" }

/-- The top record returned by
`recommend_for_interests dsA ["python", "ai"] 5`. -/
def recC : Recommendation :=
  { course_id := "c1", course_code := "C1", title := "T1", category := "ai"
    delivery_mode := "online", combined_score := 1, content_score := 1
    collab_score := 1, skills := ["python"], description := "d1"
    explanation :=
      "matches your focus on python and popular with 2 similar students" }

/-- The top record returned by `recommend_for_interests dsA [] 5`. -/
def recD : Recommendation :=
  { course_id := "c1", course_code := "C1", title := "T1", category := "ai"
    delivery_mode := "online", combined_score := mkRat 7 10, content_score := 1
    collab_score := 0, skills := ["python"], description := "d1"
    explanation := "matches your focus on python" }

/-- The explanation described by the spec: a skills fragment when the
content score is positive, a peer-count fragment when the collaborative
score is positive, a fixed generic fragment when neither is, all present
fragments joined with `" and "`. -/
def specExplanation (course_id : String) (content_score collab_score : ℚ)
    (skills : List String) (ds : SyntheticDataset) : String :=
  let fragments : List String :=
    (if content_score > 0 then [skillsFragment skills] else []) ++
    (if collab_score > 0 then [peersFragment course_id ds] else [])
  String.intercalate " and "
    (if fragments = [] then ["broadens your MAC coursework"] else fragments)

/-- C9: for nonnegative scores (all normalized scores are), the built
explanation is exactly the spec's fragment assembly; and every returned
record's explanation is built from its course, its two normalized scores
and its alphabetically sorted skill list. -/
theorem c9_explanation_spec :
    ∀ (cid : String) (content collab : ℚ) (skills : List String)
      (ds : SyntheticDataset) (comb cont coll : ScoreMap) (n : ℕ)
      (r : Recommendation),
      (0 ≤ content → 0 ≤ collab →
        _build_explanation cid content collab skills ds
          = specExplanation cid content collab skills ds) ∧
      (r ∈ _build_recommendation_payload comb cont coll ds n →
        r.explanation = _build_explanation r.course_id
          (findD cont r.course_id 0) (findD coll r.course_id 0) r.skills ds ∧
        r.skills = setToList (findD ds.course_skill_tags r.course_id ∅) ∧
        List.Sorted strR r.skills) := by
  intro cid content collab skills ds comb cont coll n r
  constructor
  · intro h0c h0b
    by_cases hcz : content = 0 <;> by_cases hbz : collab = 0
    · simp [_build_explanation, specExplanation, hcz, hbz]
    · have hb : 0 < collab := lt_of_le_of_ne h0b (Ne.symm hbz)
      simp [_build_explanation, specExplanation, hcz, hbz, hb]
    · have hc : 0 < content := lt_of_le_of_ne h0c (Ne.symm hcz)
      simp [_build_explanation, specExplanation, hcz, hbz, hc]
    · have hb : 0 < collab := lt_of_le_of_ne h0b (Ne.symm hbz)
      have hc : 0 < content := lt_of_le_of_ne h0c (Ne.symm hcz)
      simp [_build_explanation, specExplanation, hcz, hbz, hb, hc]
  · intro hr
    rcases mem_payload hr with ⟨p, _, rfl⟩
    exact ⟨rfl, rfl, sorted_setToList _⟩

theorem c9_explanation_spec_witness :
    _build_explanation "c1" 1 (1 / 2) ["a"] dsA
      = specExplanation "c1" 1 (1 / 2) ["a"] dsA ∧
    (recB.explanation = _build_explanation recB.course_id
        (findD [("c1", 1)] recB.course_id 0) (findD [] recB.course_id 0)
        recB.skills dsA ∧
      recB.skills = setToList (findD dsA.course_skill_tags recB.course_id ∅) ∧
      List.Sorted strR recB.skills) :=
  ⟨(c9_explanation_spec "c1" 1 (1 / 2) ["a"] dsA [("c1", 1)] [("c1", 1)] []
      1 recB).1 (by norm_num) (by norm_num),
   (c9_explanation_spec "c1" 1 (1 / 2) ["a"] dsA [("c1", 1)] [("c1", 1)] []
      1 recB).2 (by decide)⟩

/-- C10: every returned record's combined score is the 3-decimal rounding
of the fixed convex combination (weights summing to 1) of two normalized
component scores lying in `[0, 1]`, and therefore itself lies in
`[0, 1]` — in both entry modes. -/
theorem c10_combined_score_bounds :
    ∀ (ds : SyntheticDataset) (sid : String) (tags : List String) (n : ℕ)
      (r : Recommendation),
      (r ∈ recommend_for_student ds sid n →
        (∃ c b : ℚ, 0 ≤ c ∧ c ≤ 1 ∧ 0 ≤ b ∧ b ≤ 1 ∧
          r.combined_score = round3 ((0.6 : ℚ) * c + (0.4 : ℚ) * b)) ∧
        0 ≤ r.combined_score ∧ r.combined_score ≤ 1) ∧
      (r ∈ recommend_for_interests ds tags n →
        (∃ c b : ℚ, 0 ≤ c ∧ c ≤ 1 ∧ 0 ≤ b ∧ b ≤ 1 ∧
          r.combined_score = round3 ((0.7 : ℚ) * c + (0.3 : ℚ) * b)) ∧
        0 ≤ r.combined_score ∧ r.combined_score ≤ 1) := by
  intro ds sid tags n r
  constructor
  · intro hr
    rw [recommend_for_student, recommendWithHistory] at hr
    by_cases hc : candidateH ds (completedOf ds sid) = ∅
    · rw [if_pos hc] at hr; cases hr
    · rw [if_neg hc] at hr
      rcases mem_payload hr with ⟨p, hp, rfl⟩
      rcases mem_combinedH hp with ⟨-, hval⟩
      have hcont : ∀ q ∈ contentScoresH ds (completedOf ds sid),
          0 ≤ q.2 ∧ q.2 ≤ 1 := by
        simp only [contentScoresH]
        exact fun q hq => _normalize_bounds q hq
      have hcoll : ∀ q ∈ collabScoresH ds sid (completedOf ds sid),
          0 ≤ q.2 ∧ q.2 ≤ 1 := by
        simp only [collabScoresH]
        exact fun q hq => _normalize_bounds q hq
      have hcb := findD_bounds hcont p.1
      have hbb := findD_bounds hcoll p.1
      have hcomb : (mkRecommendation p.1 p.2
          (contentScoresH ds (completedOf ds sid))
          (collabScoresH ds sid (completedOf ds sid)) ds).combined_score
          = round3 p.2 := rfl
      have hin : 0 ≤ (0.6 : ℚ) * findD (contentScoresH ds (completedOf ds sid)) p.1 0
          + (0.4 : ℚ) * findD (collabScoresH ds sid (completedOf ds sid)) p.1 0 ∧
          (0.6 : ℚ) * findD (contentScoresH ds (completedOf ds sid)) p.1 0
          + (0.4 : ℚ) * findD (collabScoresH ds sid (completedOf ds sid)) p.1 0 ≤ 1 := by
        constructor <;> nlinarith [hcb.1, hcb.2, hbb.1, hbb.2]
      have hbound := round3_bounds hin.1 hin.2
      refine ⟨⟨_, _, hcb.1, hcb.2, hbb.1, hbb.2, by rw [hcomb, hval]⟩, ?_, ?_⟩
      · rw [hcomb, hval]; exact hbound.1
      · rw [hcomb, hval]; exact hbound.2
  · intro hr
    rw [recommend_for_interests] at hr
    by_cases hc : candidateI ds = ∅
    · rw [if_pos hc] at hr; cases hr
    · rw [if_neg hc] at hr
      rcases mem_payload hr with ⟨p, hp, rfl⟩
      rcases mem_combinedI hp with ⟨-, hval⟩
      have hcont : ∀ q ∈ contentScoresI ds tags, 0 ≤ q.2 ∧ q.2 ≤ 1 := by
        simp only [contentScoresI]
        exact fun q hq => _normalize_bounds q hq
      have hcoll : ∀ q ∈ collabScoresI ds tags, 0 ≤ q.2 ∧ q.2 ≤ 1 := by
        simp only [collabScoresI]
        exact fun q hq => _normalize_bounds q hq
      have hcb := findD_bounds hcont p.1
      have hbb := findD_bounds hcoll p.1
      have hcomb : (mkRecommendation p.1 p.2 (contentScoresI ds tags)
          (collabScoresI ds tags) ds).combined_score = round3 p.2 := rfl
      have hin : 0 ≤ (0.7 : ℚ) * findD (contentScoresI ds tags) p.1 0
          + (0.3 : ℚ) * findD (collabScoresI ds tags) p.1 0 ∧
          (0.7 : ℚ) * findD (contentScoresI ds tags) p.1 0
          + (0.3 : ℚ) * findD (collabScoresI ds tags) p.1 0 ≤ 1 := by
        constructor <;> nlinarith [hcb.1, hcb.2, hbb.1, hbb.2]
      have hbound := round3_bounds hin.1 hin.2
      refine ⟨⟨_, _, hcb.1, hcb.2, hbb.1, hbb.2, by rw [hcomb, hval]⟩, ?_, ?_⟩
      · rw [hcomb, hval]; exact hbound.1
      · rw [hcomb, hval]; exact hbound.2

theorem c10_combined_score_bounds_witness :
    (0 ≤ recA.combined_score ∧ recA.combined_score ≤ 1) ∧
    (0 ≤ recC.combined_score ∧ recC.combined_score ≤ 1) :=
  ⟨((c10_combined_score_bounds dsA "s1" ["python", "ai"] 6 recA).1
      (by decide)).2,
   ((c10_combined_score_bounds dsA "s1" ["python", "ai"] 5 recC).2
      (by decide)).2⟩

/-- C3: in both entry modes the ranked list is strictly ordered by
combined score descending with ties broken by ascending course
identifier, the returned records appear exactly in that order, and no
other ordering of the same entries satisfies the ranking order — the
order is total and deterministic. -/
theorem c3_deterministic_ranking :
    ∀ (ds : SyntheticDataset) (sid : String) (tags : List String) (n : ℕ),
      (rankList (combinedH ds sid (completedOf ds sid)) n).Pairwise strictRank ∧
      (rankList (combinedI ds tags) n).Pairwise strictRank ∧
      (recommend_for_student ds sid n).map Recommendation.course_id
        = (rankList (combinedH ds sid (completedOf ds sid)) n).map Prod.fst ∧
      (recommend_for_interests ds tags n).map Recommendation.course_id
        = (rankList (combinedI ds tags) n).map Prod.fst ∧
      (∀ l : List (String × ℚ),
        l.Perm (rankList (combinedH ds sid (completedOf ds sid)) n) →
        l.Pairwise strictRank →
        l = rankList (combinedH ds sid (completedOf ds sid)) n) := by
  intro ds sid tags n
  have hpwS : (rankList (combinedH ds sid (completedOf ds sid)) n).Pairwise
      strictRank := by
    refine rankList_pairwise n ?_
    rw [combinedH_keys]
    exact nodup_setToList _
  have hpwI : (rankList (combinedI ds tags) n).Pairwise strictRank := by
    refine rankList_pairwise n ?_
    rw [combinedI_keys]
    exact nodup_setToList _
  refine ⟨hpwS, hpwI, ?_, ?_, ?_⟩
  · rw [recommend_for_student, recommendWithHistory]
    by_cases hc : candidateH ds (completedOf ds sid) = ∅
    · rw [if_pos hc]
      have hz : combinedH ds sid (completedOf ds sid) = [] := by
        rw [combinedH, hc]
        rfl
      rw [hz]
      simp [rankList]
    · rw [if_neg hc, _build_recommendation_payload, List.map_map]
      rfl
  · rw [recommend_for_interests]
    by_cases hc : candidateI ds = ∅
    · rw [if_pos hc]
      have hz : combinedI ds tags = [] := by
        rw [combinedI, hc]
        rfl
      rw [hz]
      simp [rankList]
    · rw [if_neg hc, _build_recommendation_payload, List.map_map]
      rfl
  · exact fun l hperm hpw => eq_of_perm_of_pairwise_strictRank hperm hpw hpwS

theorem c3_deterministic_ranking_witness :
    [("c2", (1 : ℚ))] = rankList (combinedH dsA "s1" (completedOf dsA "s1")) 2 :=
  (c3_deterministic_ranking dsA "s1" [] 2).2.2.2.2 [("c2", 1)]
    (by decide) (by decide)

/-- C1 counterexample: on a snapshot with at least one course,
`recommend_for_interests` with an empty tag list returns records whose
`content_score` is 1, not 0 (the flat all-zero raw content map is
rescaled to 1.0 by the normalizer's all-equal rule), refuting the claim
at `top_n = 5` on the concrete snapshot `dsA`. -/
theorem c1_counterexample :
    ¬ ∀ r ∈ recommend_for_interests dsA [] 5,
        r.collab_score = 0 ∧ r.content_score = 0 := by
  decide

/-- C1 (amended): with an empty interest-tag list every returned record
has `collab_score = 0`, but `content_score = 1`: the raw content scores
are all zero, which is a non-empty all-equal map, and the normalizer maps
an all-equal map to 1.0 everywhere (§4.5), so the content component is
1.0, not 0. -/
theorem c1_empty_interest_scores :
    ∀ (ds : SyntheticDataset) (n : ℕ) (r : Recommendation),
      r ∈ recommend_for_interests ds [] n →
      r.collab_score = 0 ∧ r.content_score = 1 := by
  intro ds n r hr
  rw [recommend_for_interests] at hr
  by_cases hc : candidateI ds = ∅
  · rw [if_pos hc] at hr; cases hr
  · rw [if_neg hc] at hr
    rcases mem_payload hr with ⟨p, hp, rfl⟩
    have hkey : p.1 ∈ setToList (candidateI ds) :=
      mem_setToList.mpr (mem_combinedI hp).1
    have hcoll : collabScoresI ds [] = [] := by
      rw [collabScoresI]
      have hz : _score_collaborative_interests (candidateI ds)
          (cleanedInterests []) ds = [] := by
        rw [_score_collaborative_interests,
          if_pos (show cleanedInterests [] = ∅ by decide)]
      rw [hz]
      rfl
    have hcont : contentScoresI ds []
        = (setToList (candidateI ds)).map (fun cid => (cid, 1)) := by
      have hprof : interestProfile [] = emptyCounter := rfl
      have hall : ∀ q ∈ (setToList (candidateI ds)).map
          (fun cid => (cid, (0 : ℚ))), ∀ q2 ∈ (setToList (candidateI ds)).map
          (fun cid => (cid, (0 : ℚ))), q.2 = q2.2 := by
        intro q hq q2 hq2
        rcases List.mem_map.mp hq with ⟨x, _, rfl⟩
        rcases List.mem_map.mp hq2 with ⟨y, _, rfl⟩
        rfl
      rw [contentScoresI, hprof, score_content_emptyCounter,
        _normalize_allEq hall, List.map_map]
      rfl
    constructor
    · have he : (mkRecommendation p.1 p.2 (contentScoresI ds [])
          (collabScoresI ds []) ds).collab_score
          = round3 (findD (collabScoresI ds []) p.1 0) := rfl
      rw [he, hcoll]
      exact round3_zero_eq
    · have he : (mkRecommendation p.1 p.2 (contentScoresI ds [])
          (collabScoresI ds []) ds).content_score
          = round3 (findD (contentScoresI ds []) p.1 0) := rfl
      rw [he, hcont, findD_map_mk 1 hkey]
      exact round3_one_eq

theorem c1_empty_interest_scores_witness :
    recD.collab_score = 0 ∧ recD.content_score = 1 :=
  c1_empty_interest_scores dsA 5 recD (by decide)
